import Mathlib

/-!
Verification of the rf_pkt_drv repository: a shallow embedding of its byte
ring buffer, sparse register buffer, register-file parser, SPI transport
precondition and the two transceiver driver data paths, with theorems about
the frozen behavioural claims.

Machine bytes are modelled as `Nat` with explicit truncation (`% 256`,
`% 65536`) where the C code relies on fixed-width wrap-around.
-/

namespace RfPktDrv

/-! ## Ring buffer (src/src/ring_buf.c, src/src/ring_buf.h) -/

/-- State of `ring_buf_t`: backing store `buf` of length `size`, write offset
`woff` and read offset `roff`. -/
structure RingBuf where
  size : Nat
  woff : Nat
  roff : Nat
  buf : List Nat
deriving Repr, DecidableEq

/-- Embeds `ring_buf_init`: storage of `size` bytes, both offsets 0.  The C
storage is uninitialized; it is modelled as zero bytes (the code never reads
a byte it has not written). -/
def ring_buf_init (size : Nat) : RingBuf :=
  { size := size, woff := 0, roff := 0, buf := List.replicate size 0 }

/-- Embeds `ring_buf_bytes_used`. -/
def ring_buf_bytes_used (b : RingBuf) : Nat :=
  if b.woff < b.roff then b.size + b.woff - b.roff else b.woff - b.roff

/-- Embeds `ring_buf_bytes_free` (`size - used - 1`). -/
def ring_buf_bytes_free (b : RingBuf) : Nat :=
  b.size - ring_buf_bytes_used b - 1

/-- Embeds `ring_buf_bytes_readable`. -/
def ring_buf_bytes_readable (b : RingBuf) : Nat :=
  if b.woff < b.roff then b.size - b.roff else b.woff - b.roff

/-- Embeds `ring_buf_bytes_writable`. -/
def ring_buf_bytes_writable (b : RingBuf) : Nat :=
  if b.woff < b.roff then b.roff - b.woff - 1
  else if b.roff = 0 then b.size - b.woff - 1
  else b.size - b.woff

/-- Embeds `ring_buf_empty`. -/
def ring_buf_empty (b : RingBuf) : Bool :=
  b.woff == b.roff

/-- Embeds `ring_buf_consume`: advance the read offset modulo `size`; when the
buffer becomes empty both offsets are reset to 0.  The C precondition
(`assert(cnt <= ring_buf_bytes_used(obj))`) is carried as a hypothesis of the
theorems below. -/
def ring_buf_consume (b : RingBuf) (cnt : Nat) : RingBuf :=
  let roff := (b.roff + cnt) % b.size
  if roff = b.woff then { b with roff := 0, woff := 0 }
  else { b with roff := roff }

/-- Embeds `ring_buf_clear`. -/
def ring_buf_clear (b : RingBuf) : RingBuf :=
  { b with roff := 0, woff := 0 }

/-- Embeds a `memcpy(&buf[off], data, len)` into a list-modelled byte array:
successive `List.set` writes at `off`, `off+1`, ... -/
def memcpyAt (buf : List Nat) (off : Nat) : List Nat → List Nat
  | [] => buf
  | d :: ds => memcpyAt (buf.set off d) (off + 1) ds

/-- Embeds the `while (len) { ... }` copy loop inside `ring_buf_add`: copy
`min len writable` bytes at `woff`, wrap `woff` when it reaches `size`,
repeat.  Every iteration of the C loop copies at least one byte (the callers
guarantee free space), so `data.length` iterations always suffice; `fuel`
makes that bound a structural recursion.  The C loop would spin forever if
`writable` were 0 with bytes left; that (unreachable) case stops here. -/
def ring_buf_add_loop : Nat → RingBuf → List Nat → RingBuf
  | 0, b, _ => b
  | fuel + 1, b, data =>
    if data.length = 0 then b
    else if min data.length (ring_buf_bytes_writable b) = 0 then b
    else
      ring_buf_add_loop fuel
        { b with
          buf := memcpyAt b.buf b.woff
            (data.take (min data.length (ring_buf_bytes_writable b))),
          woff :=
            if b.woff + min data.length (ring_buf_bytes_writable b) = b.size
            then 0
            else b.woff + min data.length (ring_buf_bytes_writable b) }
        (data.drop (min data.length (ring_buf_bytes_writable b)))

/-- Embeds `ring_buf_add`.  The C function takes a pointer and a length; here
`data` is the byte sequence itself and `len` its length. -/
def ring_buf_add (b : RingBuf) (data : List Nat) : RingBuf :=
  if data.length ≥ b.size - 1 then
    { b with buf := memcpyAt b.buf 0 (data.drop (data.length - (b.size - 1))),
             woff := b.size - 1, roff := 0 }
  else
    ring_buf_add_loop data.length
      (if data.length > ring_buf_bytes_free b
       then ring_buf_consume b (data.length - ring_buf_bytes_free b)
       else b)
      data

/-- Reads `n` bytes of the backing store starting at `off`, wrapping modulo
`size`; the observation function used to state ring buffer properties. -/
def readFrom (buf : List Nat) (size : Nat) : Nat → Nat → List Nat
  | _, 0 => []
  | off, n + 1 => buf.getD off 0 :: readFrom buf size ((off + 1) % size) n

/-- The readable byte sequence of a ring buffer, oldest first. -/
def contents (b : RingBuf) : List Nat :=
  readFrom b.buf b.size b.roff (ring_buf_bytes_used b)

/-- Embeds `ring_buf_begin()[0]`, the first readable byte (read directly from
the store even when the buffer is empty, as the C code does). -/
def ring_buf_first (b : RingBuf) : Nat :=
  b.buf.getD b.roff 0

/-- Well-formedness of a ring buffer state: store length matches `size`, both
offsets in range, and a usable size (`ring_buf_init` is called with sizes
4097 and 5 in this repository; any size of at least 2 works). -/
def Wf (b : RingBuf) : Prop :=
  b.buf.length = b.size ∧ b.woff < b.size ∧ b.roff < b.size ∧ 2 ≤ b.size

instance (b : RingBuf) : Decidable (Wf b) := by
  unfold Wf; infer_instance

/-- Modelled from the spec: `ring_buf_get` is declared in src/src/ring_buf.h
but its definition is not among the files under src.  Per §4.2 it copies `len`
readable bytes starting at the current read offset and then advances the read
offset by `len` (peek followed by consume); behaviour when `len` exceeds
`bytes_used` is the callers responsibility, exactly as for `consume`. -/
def ring_buf_get (b : RingBuf) (len : Nat) : List Nat × RingBuf :=
  (readFrom b.buf b.size b.roff len, ring_buf_consume b len)

/-- Error results of the driver operations.  Modelled from the spec: error.h
is not under src; the exact numeric codes are immaterial to the claims, only
success versus the distinguished TX desynchronization fault matters (§4.6). -/
inductive RfErr where
  | ok
  | txOutOfSync
deriving Repr, DecidableEq

/-! ## SX1231 driver data paths (src/src/sx1231.c) -/

/-- SX1231_FIFO_SIZE from src/src/sx1231.c. -/
def SX1231_FIFO_SIZE : Nat := 66

/-- Size of the local packet scratch array in `_receive_frame`
(`uint8_t buf[64]` at src/src/sx1231.c:276). -/
def sx1231_scratch_size : Nat := 64

/-- One byte of the bit-serial CRC-16 loop of `_receive_frame` (8 iterations
of the inner `while (j)` loop; `crc` is a uint16, `b` a uint8). -/
def crc16_bits : Nat → Nat → Nat → Nat
  | 0, crc, _ => crc
  | j + 1, crc, b =>
    let crc' :=
      if ((b ^^^ (crc >>> 8)) &&& 0x80) ≠ 0
      then ((crc <<< 1) % 0x10000) ^^^ 0x8005
      else (crc <<< 1) % 0x10000
    crc16_bits j crc' ((b <<< 1) % 0x100)

/-- The CRC-16 (polynomial 0x8005) of a byte sequence, initial register 0,
as computed by the loop in `_receive_frame`. -/
def crc16_calc (bytes : List Nat) : Nat :=
  bytes.foldl (fun crc b => crc16_bits 8 crc b) 0

/-- The `drop` flag computed by the local CRC block of `_receive_frame`
(src/src/sx1231.c:311-348): `scratch` is the local packet buffer, indexed
exactly as the C `buf` array; `pktlen` is the value before the `pktlen -= 2`
decrement. -/
def sx1231_crc_drop (hdrlen pktlen : Nat) (scratch : List Nat) : Bool :=
  if pktlen < 2 then true
  else
    let p2 := pktlen - 2
    let crc := crc16_calc ((scratch.drop hdrlen).take (p2 - hdrlen))
    ((scratch.getD p2 0) != ((crc >>> 8) &&& 0xff)) ||
      ((scratch.getD (p2 + 1) 0) != (crc &&& 0xff))

/-- Follows the words of the specification (§4.8) for the local CRC check, to
be compared with `sx1231_crc_drop`: the CRC covers payload bytes from the
header-length offset up to but not including the final two bytes, which are
compared as a big-endian CRC; a payload shorter than 2 bytes fails at once. -/
def sx1231_crc_drop_spec (hdrlen : Nat) (scratch : List Nat) : Bool :=
  if scratch.length - hdrlen < 2 then true
  else
    let crc := crc16_calc ((scratch.take (scratch.length - 2)).drop hdrlen)
    ((scratch.getD (scratch.length - 2) 0) != ((crc >>> 8) &&& 0xff)) ||
      ((scratch.getD (scratch.length - 1) 0) != (crc &&& 0xff))

/-- Outcome of one `_receive_frame` call. -/
structure SxRxOut where
  rx : RingBuf
  accepted : Bool
  drop : Bool
  delivered : Bool
  writes : Nat
deriving Repr, DecidableEq

/-- Tail of `_receive_frame` after the header decision: local CRC check and
conditional append to the RX ring buffer.  `writes` counts the scratch-array
bytes the reception stored (indices 0 .. writes-1 of the C `buf[64]`). -/
def sx1231_receive_body (hdrlen pktlen : Nat) (scratch : List Nat)
    (rx : RingBuf) : SxRxOut :=
  let drop := sx1231_crc_drop hdrlen pktlen scratch
  let pktlen2 := if pktlen < 2 then pktlen else pktlen - 2
  if drop = false ∧ hdrlen + pktlen2 ≤ ring_buf_bytes_free rx then
    { rx := ring_buf_add rx (scratch.take (hdrlen + pktlen2)),
      accepted := true, drop := drop, delivered := true,
      writes := hdrlen + pktlen }
  else
    { rx := rx, accepted := true, drop := drop, delivered := false,
      writes := hdrlen + pktlen }

/-- Embeds `_receive_frame` (src/src/sx1231.c:273-361).  `fifo` is the byte
stream the chip returns from `RegFifo`; the SPI reads themselves always
succeed here (the claims are about the packet handling, not SPI failures). -/
def sx1231_receive_frame (fixpklen : Nat) (fifo : List Nat) (rx : RingBuf) :
    SxRxOut :=
  if fixpklen = 0 then
    let pktlen := fifo.getD 0 0
    if pktlen = 0 ∨ pktlen > SX1231_FIFO_SIZE - 1 then
      { rx := rx, accepted := false, drop := false, delivered := false,
        writes := 1 }
    else
      sx1231_receive_body 1 pktlen (fifo.getD 0 0 :: (fifo.drop 1).take pktlen) rx
  else
    sx1231_receive_body 0 fixpklen (fifo.take fixpklen) rx

/-- Outcome of one `_send_frame` call: `fifoWrite` is the byte list of the
single multi-register write to RegFifo (none when no SPI write was issued)
and `drained` the number of bytes `ring_buf_get` was asked to remove. -/
structure SxTxOut where
  result : RfErr
  tx : RingBuf
  fifoWrite : Option (List Nat)
  drained : Nat
deriving Repr, DecidableEq

/-- Embeds `_send_frame` (src/src/sx1231.c:231-271). -/
def sx1231_send_frame (fixpklen : Nat) (tx : RingBuf) : SxTxOut :=
  let hdrlen := if fixpklen = 0 then 1 else 0
  let pktlen := if fixpklen = 0 then ring_buf_first tx else fixpklen
  if pktlen = 0 ∨ pktlen > SX1231_FIFO_SIZE - 1 then
    { result := RfErr.txOutOfSync, tx := tx, fifoWrite := none, drained := 0 }
  else if pktlen ≤ ring_buf_bytes_used tx then
    { result := RfErr.ok,
      tx := (ring_buf_get tx (hdrlen + pktlen)).2,
      fifoWrite := some ((ring_buf_get tx (hdrlen + pktlen)).1.take pktlen),
      drained := hdrlen + pktlen }
  else
    { result := RfErr.ok, tx := tx, fifoWrite := none, drained := 0 }

/-! ## Si443x driver receive path (src/src/si443x.c) -/

/-- SI443X_FIFO_SIZE from src/src/si443x.c. -/
def SI443X_FIFO_SIZE : Nat := 64

/-- Modelled from the spec: the numeric values of the Si443x register bit
masks live in si443x_enums.h, which is not under src; these are the datasheet
bit positions for the names the spec uses (§4.7).  The theorems depend only
on which distinct bit each name denotes. -/
def DEVICE_STATUS_FFOVFL : Nat := 0x80

/-- Modelled from the spec: see `DEVICE_STATUS_FFOVFL`. -/
def DEVICE_STATUS_FFUNFL : Nat := 0x40

/-- Modelled from the spec: see `DEVICE_STATUS_FFOVFL`. -/
def DEVICE_STATUS_RXFFEM : Nat := 0x20

/-- Modelled from the spec: see `DEVICE_STATUS_FFOVFL`. -/
def OPERATING_MODE_AND_FUNCTION_CONTROL_1_RXON : Nat := 0x04

/-- Modelled from the spec: see `DEVICE_STATUS_FFOVFL`. -/
def OPERATING_MODE_AND_FUNCTION_CONTROL_2_FFCLRRX : Nat := 0x02

/-- Registers written by the RX-FIFO recovery path. -/
inductive SiReg where
  | opCtrl1
  | opCtrl2
deriving Repr, DecidableEq

/-- The register-write sequence `_reset_rx_fifo` (src/src/si443x.c:222-261)
issues, given the two control bytes it read back: RX disabled if it was
enabled, FFCLRRX pulsed set-then-clear, RX re-enabled.  The C `x & ~mask` on
a uint8 is `x &&& (0xFF ^^^ mask)` for byte-sized x. -/
def si443x_reset_rx_fifo_writes (ctrl1 ctrl2 : Nat) : List (SiReg × Nat) :=
  (if ctrl1 &&& OPERATING_MODE_AND_FUNCTION_CONTROL_1_RXON ≠ 0 then
    [(SiReg.opCtrl1,
      ctrl1 &&& (0xFF ^^^ OPERATING_MODE_AND_FUNCTION_CONTROL_1_RXON))]
   else []) ++
  [(SiReg.opCtrl2, ctrl2 ||| OPERATING_MODE_AND_FUNCTION_CONTROL_2_FFCLRRX),
   (SiReg.opCtrl2,
     ctrl2 &&& (0xFF ^^^ OPERATING_MODE_AND_FUNCTION_CONTROL_2_FFCLRRX))] ++
  (if ctrl1 &&& OPERATING_MODE_AND_FUNCTION_CONTROL_1_RXON ≠ 0 then
    [(SiReg.opCtrl1, ctrl1)]
   else [])

/-- Chip-side inputs of one `rf_handle` call on the Si443x: the first
DEVICE_STATUS read, the cached framing state, the FIFO bytes returned for the
header and payload reads, the DEVICE_STATUS value after the payload read, and
the two control registers `_reset_rx_fifo` would read back. -/
structure Si443xIn where
  devStatus : Nat
  txhdlen : Nat
  fixpklen : Nat
  headerBytes : List Nat
  payloadBytes : List Nat
  devStatus2 : Nat
  ctrl1 : Nat
  ctrl2 : Nat
deriving Repr, DecidableEq

/-- Outcome of one Si443x `rf_handle` call. -/
structure Si443xOut where
  result : RfErr
  rx : RingBuf
  regWrites : List (SiReg × Nat)
deriving Repr, DecidableEq

/-- Embeds `rf_handle` of src/src/si443x.c:111-201.  The ISWDET busy-wait is
elided (it only re-reads INTERRUPT_STATUS_2 until the bit clears and has no
other effect). -/
def si443x_rf_handle (inp : Si443xIn) (rx : RingBuf) : Si443xOut :=
  if inp.devStatus &&& DEVICE_STATUS_RXFFEM ≠ 0 then
    { result := RfErr.ok, rx := rx, regWrites := [] }
  else
    let hdrlen := inp.txhdlen + (if inp.fixpklen = 0 then 1 else 0)
    if inp.fixpklen = 0 ∧
        inp.headerBytes.getD (hdrlen - 1) 0 > SI443X_FIFO_SIZE - 3 then
      { result := RfErr.ok, rx := rx,
        regWrites := si443x_reset_rx_fifo_writes inp.ctrl1 inp.ctrl2 }
    else
      let pktlen := if inp.fixpklen = 0 then inp.headerBytes.getD (hdrlen - 1) 0
                    else inp.fixpklen
      if inp.devStatus2 &&& (DEVICE_STATUS_FFOVFL ||| DEVICE_STATUS_FFUNFL) ≠ 0
      then
        { result := RfErr.ok, rx := rx,
          regWrites := si443x_reset_rx_fifo_writes inp.ctrl1 inp.ctrl2 }
      else
        let frame := inp.headerBytes.take hdrlen ++ inp.payloadBytes.take pktlen
        if hdrlen + pktlen ≤ ring_buf_bytes_free rx then
          { result := RfErr.ok, rx := ring_buf_add rx frame, regWrites := [] }
        else
          { result := RfErr.ok, rx := rx, regWrites := [] }

/-! ## Sparse register buffer (src/unnamed/part_005 = sparse_buf.c) -/

/-- State of `sparse_buf_t`: a value byte and a validity bit per offset.  The
C validity bitmap packs bits into unsigned ints; one Bool per offset is the
same abstract state. -/
structure SparseBuf where
  size : Nat
  values : List Nat
  valid : List Bool
deriving Repr, DecidableEq

/-- Embeds `sparse_buf_init` (values are malloc-uninitialized in C, modelled
as zero; the validity bitmap is calloc-zeroed). -/
def sparse_buf_init (size : Nat) : SparseBuf :=
  { size := size, values := List.replicate size 0,
    valid := List.replicate size false }

/-- Embeds `sparse_buf_clear`: zero the validity bitmap only. -/
def sparse_buf_clear (obj : SparseBuf) : SparseBuf :=
  { obj with valid := List.replicate obj.size false }

/-- Embeds `sparse_buf_write`: out-of-range fails without mutation. -/
def sparse_buf_write (obj : SparseBuf) (off : Nat) (val : Nat) :
    Option SparseBuf :=
  if off ≥ obj.size then none
  else some { obj with values := obj.values.set off val,
                       valid := obj.valid.set off true }

/-- Modelled from the spec: `sparse_buf_is_valid` is an inline of
sparse_buf.h, which is not under src; per §4.3 it is false for out-of-range
offsets and the bitmap bit otherwise. -/
def sparse_buf_is_valid (obj : SparseBuf) (off : Nat) : Bool :=
  obj.valid.getD off false

/-- Scan loop of `sparse_buf_next_valid`; the C loop runs at most
`size - off` iterations, so `fuel := size + 1` always suffices. -/
def sparse_buf_next_valid_go (obj : SparseBuf) : Nat → Nat → Option Nat
  | 0, _ => none
  | fuel + 1, off =>
    if off < obj.size then
      if sparse_buf_is_valid obj off then some off
      else sparse_buf_next_valid_go obj fuel (off + 1)
    else none

/-- Embeds `sparse_buf_next_valid`; `none` is the SPARSE_BUF_OFF_END
sentinel. -/
def sparse_buf_next_valid (obj : SparseBuf) (off : Nat) : Option Nat :=
  sparse_buf_next_valid_go obj (obj.size + 1) off

/-- Scan loop of `sparse_buf_valid_length`, with the same fuel bound. -/
def sparse_buf_valid_length_go (obj : SparseBuf) : Nat → Nat → Nat
  | 0, _ => 0
  | fuel + 1, off =>
    if off < obj.size then
      if sparse_buf_is_valid obj off then
        sparse_buf_valid_length_go obj fuel (off + 1) + 1
      else 0
    else 0

/-- Embeds `sparse_buf_valid_length`. -/
def sparse_buf_valid_length (obj : SparseBuf) (off : Nat) : Nat :=
  sparse_buf_valid_length_go obj (obj.size + 1) off

/-- The (address, length) pairs of the multi-register writes the `_configure`
loop of src/src/si443x.c:282-306 (identical in src/src/sx1231.c) issues, one
per maximal valid run.  The C while-loop terminates because the offset
strictly increases each iteration; `fuel` makes that bound explicit and
`regs.size + 1` always suffices. -/
def configure_runs_go (regs : SparseBuf) : Nat → Nat → List (Nat × Nat)
  | 0, _ => []
  | fuel + 1, off =>
    match sparse_buf_next_valid regs off with
    | none => []
    | some o =>
      (o, sparse_buf_valid_length regs o) ::
        configure_runs_go regs fuel (o + sparse_buf_valid_length regs o)

/-- The full write-run sequence of `_configure`, scanning from offset 0. -/
def configure_runs (regs : SparseBuf) : List (Nat × Nat) :=
  configure_runs_go regs (regs.size + 1) 0

/-- The checked precondition of `_si443x_spi_transfer`
(src/unnamed/part_003:52-56): the two asserts at the top of the transfer
primitive. -/
def spi_transfer_precond (addr len : Nat) : Bool :=
  ((addr &&& 0x80) == 0) &&
  (((addr == 0x7F) && decide (len ≤ 64)) ||
   (decide (len < 0x7F) && decide (addr ≤ 0x7F - len)))

/-! ## Register configuration file parsing (src/unnamed/part_004 =
parse_reg_file.c) -/

/-- Modelled from the spec: dehexify.c is not under src (only its unit tests
are).  Per §4.1: decode exactly 2×count hex characters, case-insensitive,
high nibble first; a non-hex character or short input fails; trailing input
beyond the requested span is ignored. -/
def hexVal (c : Char) : Option Nat :=
  if '0' ≤ c ∧ c ≤ '9' then some (c.toNat - '0'.toNat)
  else if 'a' ≤ c ∧ c ≤ 'f' then some (c.toNat - 'a'.toNat + 10)
  else if 'A' ≤ c ∧ c ≤ 'F' then some (c.toNat - 'A'.toNat + 10)
  else none

/-- Modelled from the spec: see `hexVal`. -/
def dehexify : List Char → Nat → Option (List Nat)
  | _, 0 => some []
  | c1 :: c2 :: rest, n + 1 =>
    match hexVal c1, hexVal c2 with
    | some hi, some lo =>
      match dehexify rest n with
      | some bs => some ((hi * 16 + lo) :: bs)
      | none => none
    | _, _ => none
  | _, _ + 1 => none

/-- The whitespace class stripped from line ends by parse_reg_file (space,
tab, and the newline kept by fgets). -/
def isStripWs (c : Char) : Bool :=
  c == ' ' || c == '\t' || c == '\n'

/-- Leading/trailing whitespace stripping of parse_reg_file (lines 72-81):
trailing space/tab/newline, then leading space/tab.  Lines are modelled
without their newline terminator. -/
def stripLine (l : List Char) : List Char :=
  ((l.reverse.dropWhile isStripWs).reverse).dropWhile
    (fun c => c == ' ' || c == '\t')

/-- Result of processing one line. -/
inductive LineRes where
  | skip
  | entry (addr val : Nat)
  | err
deriving Repr, DecidableEq

/-- The common tail of both line formats (src/unnamed/part_004:156-165):
mask the address to 7 bits and reject the reserved FIFO address 0x7F. -/
def regEntry (bin0 val : Nat) : LineRes :=
  let addr := bin0 &&& 0x7F
  if addr = 0x7F then LineRes.err else LineRes.entry addr val

/-- Embeds the per-line work of parse_reg_file (src/unnamed/part_004:56-165):
length guard (fgets buffer of 1024 cannot deliver a line of 1023+ content
characters plus its newline), whitespace stripping, the WDS `S2 AAVV` format
and the plain `AA VV` format. -/
def parse_line (raw : List Char) : LineRes :=
  if raw.length ≥ 1023 then LineRes.err
  else
    let bp := stripLine raw
    if bp.length = 0 then LineRes.skip
    else if bp.getD 0 ' ' = 'S' ∨ bp.getD 0 ' ' = 's' then
      if bp.length ≠ 7 then LineRes.err
      else if ¬(bp.getD 1 ' ' = '2' ∧ bp.getD 2 ' ' = ' ') then LineRes.err
      else
        match dehexify (bp.drop 3) 2 with
        | none => LineRes.err
        | some bin =>
          if (bin.getD 0 0) &&& 0x80 = 0 then LineRes.err
          else regEntry (bin.getD 0 0) (bin.getD 1 0)
    else
      if bp.length ≠ 5 then LineRes.err
      else if bp.getD 2 ' ' ≠ ' ' then LineRes.err
      else
        match dehexify (bp.take 2) 1, dehexify (bp.drop 3) 1 with
        | some b0, some b1 =>
          if (b0.getD 0 0) &&& 0x80 ≠ 0 then LineRes.err
          else regEntry (b0.getD 0 0) (b1.getD 0 0)
        | _, _ => LineRes.err

/-- The line loop of parse_reg_file: on the first failing line the function
returns the error, leaving the sparse buffer in whatever state the earlier
lines produced (the C buffer is an in-out parameter). -/
def process_lines (lines : List (List Char)) (regs : SparseBuf) :
    Bool × SparseBuf :=
  match lines with
  | [] => (true, regs)
  | l :: ls =>
    match parse_line l with
    | LineRes.skip => process_lines ls regs
    | LineRes.err => (false, regs)
    | LineRes.entry a v =>
      match sparse_buf_write regs a v with
      | none => (false, regs)
      | some regs' => process_lines ls regs'

/-- Embeds parse_reg_file (src/unnamed/part_004:39-184), with the file given
as its list of lines: clear the validity bitmap, then process line by line. -/
def parse_reg_file (lines : List (List Char)) (regs : SparseBuf) :
    Bool × SparseBuf :=
  process_lines lines (sparse_buf_clear regs)

/-- Hex digit characters, for building concrete configuration files. -/
def hexDigitChar (n : Nat) : Char :=
  [ '0', '1', '2', '3', '4', '5', '6', '7', '8', '9',
    'A', 'B', 'C', 'D', 'E', 'F'].getD n '0'

/-- Two-character uppercase hex rendering of a byte. -/
def byteHexChars (n : Nat) : List Char :=
  [hexDigitChar (n / 16), hexDigitChar (n % 16)]

/-- A configuration file assigning value 00 to every register address
0x00 .. 0x7E, one plain-format line per address. -/
def fullCfgLines : List (List Char) :=
  (List.range 127).map (fun a => byteHexChars a ++ [' '] ++ byteHexChars 0)

/-! ## Ring buffer operation traces (for the global invariant claim) -/

/-- The mutating ring buffer operations of src/src/ring_buf.c. -/
inductive RBOp where
  | add (data : List Nat)
  | consume (cnt : Nat)
  | clear
deriving Repr, DecidableEq

/-- One operation step. -/
def rb_step (b : RingBuf) : RBOp → RingBuf
  | RBOp.add data => ring_buf_add b data
  | RBOp.consume cnt => ring_buf_consume b cnt
  | RBOp.clear => ring_buf_clear b

/-- Run a sequence of operations. -/
def rb_run (b : RingBuf) : List RBOp → RingBuf
  | [] => b
  | op :: ops => rb_run (rb_step b op) ops

/-- A trace is valid when every consume respects the C-side assertion
`cnt <= ring_buf_bytes_used(obj)`. -/
def rb_trace_ok (b : RingBuf) : List RBOp → Bool
  | [] => true
  | op :: ops =>
    (match op with
     | RBOp.consume cnt => decide (cnt ≤ ring_buf_bytes_used b)
     | _ => true) && rb_trace_ok (rb_step b op) ops

/-! ### List helpers -/

theorem getD_set_eq {α : Type} (l : List α) (i : Nat) (a d : α)
    (h : i < l.length) : (l.set i a).getD i d = a := by
  induction l generalizing i with
  | nil => simp at h
  | cons x xs ih =>
    cases i with
    | zero => rfl
    | succ n => simpa [List.getD] using ih n (by simpa using h)

theorem getD_set_ne {α : Type} (l : List α) (i j : Nat) (a d : α) (h : i ≠ j) :
    (l.set i a).getD j d = l.getD j d := by
  induction l generalizing i j with
  | nil => simp
  | cons x xs ih =>
    cases i with
    | zero =>
      cases j with
      | zero => exact absurd rfl h
      | succ m => rfl
    | succ n =>
      cases j with
      | zero => rfl
      | succ m => simpa [List.getD] using ih n m (by omega)

theorem getD_take (l : List Nat) (c k : Nat) (h : k < c) :
    (l.take c).getD k 0 = l.getD k 0 := by
  induction l generalizing c k with
  | nil => simp
  | cons x xs ih =>
    cases c with
    | zero => omega
    | succ c =>
      cases k with
      | zero => rfl
      | succ m => simpa [List.getD] using ih c m (by omega)

theorem getD_append_lt (l1 l2 : List Nat) (i : Nat) (h : i < l1.length) :
    (l1 ++ l2).getD i 0 = l1.getD i 0 := by
  induction l1 generalizing i with
  | nil => simp at h
  | cons x xs ih =>
    cases i with
    | zero => rfl
    | succ m => simpa [List.getD] using ih m (by simpa using h)

theorem getD_append_ge (l1 l2 : List Nat) (i : Nat) :
    (l1 ++ l2).getD (l1.length + i) 0 = l2.getD i 0 := by
  induction l1 with
  | nil => simp
  | cons x xs ih => simpa [List.getD, Nat.succ_add] using ih

theorem list_eq_of_getD (l1 l2 : List Nat) (hlen : l1.length = l2.length)
    (h : ∀ i, i < l1.length → l1.getD i 0 = l2.getD i 0) : l1 = l2 := by
  induction l1 generalizing l2 with
  | nil => cases l2 with
    | nil => rfl
    | cons y ys => simp at hlen
  | cons x xs ih =>
    cases l2 with
    | nil => simp at hlen
    | cons y ys =>
      have h0 := h 0 (by simp)
      simp [List.getD] at h0
      have htl : xs = ys := by
        refine ih ys (by simpa using hlen) ?_
        intro i hi
        simpa [List.getD] using h (i + 1) (by simpa using Nat.succ_lt_succ hi)
      rw [h0, htl]

/-! ### Modular arithmetic helpers -/

theorem mod_two_blocks (x n : Nat) (h1 : n ≤ x) (h2 : x < 2 * n) :
    x % n = x - n := by
  rw [Nat.mod_eq_sub_mod h1]
  exact Nat.mod_eq_of_lt (by omega)

theorem add_mod_inj (r t1 t2 n : Nat) (h1 : t1 < n) (h2 : t2 < n)
    (h : (r + t1) % n = (r + t2) % n) : t1 = t2 := by
  have hmod : t1 % n = t2 % n := Nat.ModEq.add_left_cancel' r h
  rwa [Nat.mod_eq_of_lt h1, Nat.mod_eq_of_lt h2] at hmod

/-! ### memcpyAt lemmas -/

theorem memcpyAt_length (data : List Nat) (buf : List Nat) (off : Nat) :
    (memcpyAt buf off data).length = buf.length := by
  induction data generalizing buf off with
  | nil => rfl
  | cons d ds ih => simpa [memcpyAt] using ih (buf.set off d) (off + 1)

theorem memcpyAt_getD (data : List Nat) (buf : List Nat) (off j : Nat)
    (hfit : off + data.length ≤ buf.length) :
    (memcpyAt buf off data).getD j 0 =
      if off ≤ j ∧ j < off + data.length then data.getD (j - off) 0
      else buf.getD j 0 := by
  induction data generalizing buf off with
  | nil =>
    simp only [memcpyAt, List.length_nil, Nat.add_zero]
    rw [if_neg (by omega)]
  | cons d ds ih =>
    have hfit' : off + 1 + ds.length ≤ (buf.set off d).length := by
      simp only [List.length_set]; simp at hfit; omega
    rw [memcpyAt, ih (buf.set off d) (off + 1) hfit']
    by_cases hj : off + 1 ≤ j ∧ j < off + 1 + ds.length
    · rw [if_pos hj, if_pos (by simp only [List.length_cons]; omega)]
      have : j - off = (j - (off + 1)) + 1 := by omega
      rw [this]
      rfl
    · rw [if_neg hj]
      by_cases he : j = off
      · subst he
        rw [if_pos (by simp), getD_set_eq buf j d 0 (by simp at hfit; omega)]
        simp
      · rw [if_neg (by simp at hj ⊢; intro h1; omega),
          getD_set_ne buf off j d 0 (by omega)]

/-! ### readFrom lemmas -/

theorem readFrom_length (buf : List Nat) (size : Nat) (off n : Nat) :
    (readFrom buf size off n).length = n := by
  induction n generalizing off with
  | zero => rfl
  | succ m ih => simpa [readFrom] using ih ((off + 1) % size)

theorem readFrom_getD (buf : List Nat) (size : Nat) (off n i : Nat)
    (hoff : off < size) (hi : i < n) :
    (readFrom buf size off n).getD i 0 = buf.getD ((off + i) % size) 0 := by
  induction n generalizing off i with
  | zero => omega
  | succ m ih =>
    cases i with
    | zero =>
      simp [readFrom, List.getD, Nat.mod_eq_of_lt hoff]
    | succ k =>
      have hlt : (off + 1) % size < size := Nat.mod_lt _ (by omega)
      rw [readFrom]
      simp only [List.getD_cons_succ]
      rw [ih ((off + 1) % size) k hlt (by omega), Nat.mod_add_mod]
      have harg : off + 1 + k = off + (k + 1) := by omega
      rw [harg]

theorem readFrom_drop (buf : List Nat) (size : Nat) (cnt n off : Nat)
    (hcnt : cnt ≤ n) (hoff : off < size) :
    (readFrom buf size off n).drop cnt =
      readFrom buf size ((off + cnt) % size) (n - cnt) := by
  induction cnt generalizing off n with
  | zero => simp [Nat.mod_eq_of_lt hoff]
  | succ c ih =>
    cases n with
    | zero => omega
    | succ m =>
      have hlt : (off + 1) % size < size := Nat.mod_lt _ (by omega)
      rw [readFrom, List.drop_succ_cons, ih m ((off + 1) % size) (by omega) hlt,
        Nat.mod_add_mod]
      have h1 : off + 1 + c = off + (c + 1) := by omega
      have h2 : m - c = m + 1 - (c + 1) := by omega
      rw [h1, h2]

/-! ### Ring buffer structural lemmas -/

theorem used_le (b : RingBuf) (h1 : b.woff < b.size) (h2 : b.roff < b.size) :
    ring_buf_bytes_used b ≤ b.size - 1 := by
  unfold ring_buf_bytes_used
  split_ifs <;> omega

theorem used_eq_mod (b : RingBuf) (h1 : b.woff < b.size) (h2 : b.roff < b.size) :
    ring_buf_bytes_used b = (b.size + b.woff - b.roff) % b.size := by
  unfold ring_buf_bytes_used
  split_ifs with h
  · rw [Nat.mod_eq_of_lt (by omega)]
  · rw [mod_two_blocks _ _ (by omega) (by omega)]
    omega

theorem woff_canonical (b : RingBuf) (h1 : b.woff < b.size) (h2 : b.roff < b.size) :
    (b.roff + ring_buf_bytes_used b) % b.size = b.woff := by
  unfold ring_buf_bytes_used
  split_ifs with h
  · have he : b.roff + (b.size + b.woff - b.roff) = b.size + b.woff := by omega
    rw [he, mod_two_blocks _ _ (by omega) (by omega)]
    omega
  · have he : b.roff + (b.woff - b.roff) = b.woff := by omega
    rw [he, Nat.mod_eq_of_lt h1]

theorem used_add_writable (b : RingBuf) (h1 : b.woff < b.size) (h2 : b.roff < b.size)
    (hs : 2 ≤ b.size) :
    ring_buf_bytes_used b + ring_buf_bytes_writable b ≤ b.size - 1 := by
  unfold ring_buf_bytes_used ring_buf_bytes_writable
  split_ifs <;> omega

theorem writable_le (b : RingBuf) (h1 : b.woff < b.size) (h2 : b.roff < b.size) :
    b.woff + ring_buf_bytes_writable b ≤ b.size := by
  unfold ring_buf_bytes_writable
  split_ifs <;> omega

theorem used_update_roff (b : RingBuf) (x : Nat) :
    ring_buf_bytes_used { b with roff := x } =
      if b.woff < x then b.size + b.woff - x else b.woff - x := rfl

theorem writable_pos (b : RingBuf) (h1 : b.woff < b.size) (h2 : b.roff < b.size)
    (hfree : 1 ≤ ring_buf_bytes_free b) : 1 ≤ ring_buf_bytes_writable b := by
  unfold ring_buf_bytes_free ring_buf_bytes_used at hfree
  unfold ring_buf_bytes_writable
  rcases Nat.lt_or_ge b.woff b.roff with h | h
  · rw [if_pos h] at hfree ⊢
    omega
  · rw [if_neg (by omega)] at hfree ⊢
    by_cases h0 : b.roff = 0
    · rw [if_pos h0]
      omega
    · rw [if_neg h0]
      omega

theorem contents_length (b : RingBuf) :
    (contents b).length = ring_buf_bytes_used b :=
  readFrom_length _ _ _ _

/-- Specification of `ring_buf_consume` under its checked precondition. -/
theorem consume_spec (b : RingBuf) (cnt : Nat) (hwf : Wf b)
    (hcnt : cnt ≤ ring_buf_bytes_used b) :
    Wf (ring_buf_consume b cnt) ∧
    (ring_buf_consume b cnt).size = b.size ∧
    (ring_buf_consume b cnt).buf = b.buf ∧
    ring_buf_bytes_used (ring_buf_consume b cnt) = ring_buf_bytes_used b - cnt ∧
    contents (ring_buf_consume b cnt) = (contents b).drop cnt := by
  obtain ⟨hl, hw, hr, hs⟩ := hwf
  have hule := used_le b hw hr
  have hcanon := woff_canonical b hw hr
  have hrlt : (b.roff + cnt) % b.size < b.size := Nat.mod_lt _ (by omega)
  unfold ring_buf_consume
  by_cases hEq : (b.roff + cnt) % b.size = b.woff
  · have hceq : cnt = ring_buf_bytes_used b :=
      add_mod_inj b.roff cnt (ring_buf_bytes_used b) b.size (by omega) (by omega)
        (hEq.trans hcanon.symm)
    rw [if_pos hEq]
    have hz : ring_buf_bytes_used { b with roff := 0, woff := 0 } = 0 := by
      simp [ring_buf_bytes_used]
    refine ⟨⟨hl, by show 0 < b.size; omega, by show 0 < b.size; omega, hs⟩,
      rfl, rfl, ?_, ?_⟩
    · rw [hz]
      omega
    · rw [contents, hz, hceq, ← contents_length b, List.drop_length]
      rfl
  · rw [if_neg hEq]
    have hresolve : (b.roff + cnt < b.size ∧ (b.roff + cnt) % b.size = b.roff + cnt) ∨
        (b.size ≤ b.roff + cnt ∧ (b.roff + cnt) % b.size = b.roff + cnt - b.size) := by
      rcases Nat.lt_or_ge (b.roff + cnt) b.size with h | h
      · exact Or.inl ⟨h, Nat.mod_eq_of_lt h⟩
      · exact Or.inr ⟨h, mod_two_blocks _ _ h (by omega)⟩
    have hused : ring_buf_bytes_used { b with roff := (b.roff + cnt) % b.size } =
        ring_buf_bytes_used b - cnt := by
      rw [used_update_roff]
      unfold ring_buf_bytes_used at hcnt hule ⊢
      rcases hresolve with ⟨hbnd, h⟩ | ⟨hbnd, h⟩ <;> rw [h] at hEq ⊢ <;>
        split_ifs at hcnt hule ⊢ <;> omega
    refine ⟨⟨hl, hw, hrlt, hs⟩, rfl, rfl, hused, ?_⟩
    rw [contents, contents, hused,
      readFrom_drop b.buf b.size cnt (ring_buf_bytes_used b) b.roff hcnt hr]

/-- Effect of one copy iteration of the `ring_buf_add` loop: a contiguous
chunk of at most `bytes_writable` bytes lands at the write offset and the
readable sequence grows by exactly that chunk. -/
theorem contents_copy (b b' : RingBuf) (chunk : List Nat) (hwf : Wf b)
    (hne : 1 ≤ chunk.length) (hlen : chunk.length ≤ ring_buf_bytes_writable b)
    (hb' : b' = { b with
      buf := memcpyAt b.buf b.woff chunk,
      woff := if b.woff + chunk.length = b.size then 0
              else b.woff + chunk.length }) :
    Wf b' ∧ b'.size = b.size ∧ b'.roff = b.roff ∧
    ring_buf_bytes_used b' = ring_buf_bytes_used b + chunk.length ∧
    contents b' = contents b ++ chunk := by
  obtain ⟨hl, hw, hr, hs⟩ := hwf
  have hwc : b.woff + chunk.length ≤ b.size := by
    have := writable_le b hw hr
    omega
  have hucs : ring_buf_bytes_used b + chunk.length ≤ b.size - 1 := by
    have := used_add_writable b hw hr hs
    omega
  have hcanon := woff_canonical b hw hr
  have hlen' : (memcpyAt b.buf b.woff chunk).length = b.size := by
    rw [memcpyAt_length, hl]
  have hwoff' : b'.woff < b.size := by
    rw [hb']
    dsimp only
    split_ifs <;> omega
  have hused' : ring_buf_bytes_used b' = ring_buf_bytes_used b + chunk.length := by
    rw [hb']
    unfold ring_buf_bytes_used ring_buf_bytes_writable at *
    dsimp only at *
    split_ifs at * <;> omega
  have hwin : ∀ k, k < chunk.length →
      (b.roff + (ring_buf_bytes_used b + k)) % b.size = b.woff + k := by
    intro k hk
    have he : b.roff + (ring_buf_bytes_used b + k) =
        b.roff + ring_buf_bytes_used b + k := by omega
    rw [he, ← Nat.mod_add_mod, hcanon, Nat.mod_eq_of_lt (by omega)]
  have hwfb' : Wf b' := by
    refine ⟨?_, ?_, ?_, ?_⟩
    · rw [hb']; exact hlen'
    · rw [hb'] at hwoff' ⊢; exact hwoff'
    · rw [hb']; exact hr
    · rw [hb']; exact hs
  refine ⟨hwfb', by rw [hb'], by rw [hb'], hused', ?_⟩
  have hszb' : b'.size = b.size := by rw [hb']
  have hroffb' : b'.roff = b.roff := by rw [hb']
  have hbufb' : b'.buf = memcpyAt b.buf b.woff chunk := by rw [hb']
  apply list_eq_of_getD
  · rw [contents_length, hused', List.length_append, contents_length]
  · intro i hi
    rw [contents_length, hused'] at hi
    rw [contents, hszb', hroffb', hbufb', hused',
      readFrom_getD _ _ _ _ i hr hi]
    rw [memcpyAt_getD chunk b.buf b.woff ((b.roff + i) % b.size) (by omega)]
    by_cases hcase : i < ring_buf_bytes_used b
    · rw [if_neg ?_, getD_append_lt _ _ _ (by rw [contents_length]; exact hcase),
        contents, readFrom_getD _ _ _ _ i hr hcase]
      rintro ⟨ha, hb2⟩
      have hk := hwin ((b.roff + i) % b.size - b.woff) (by omega)
      have hieq : i = ring_buf_bytes_used b + ((b.roff + i) % b.size - b.woff) := by
        refine add_mod_inj b.roff _ _ b.size (by omega) (by omega) ?_
        rw [hk]
        omega
      omega
    · have hk : i = ring_buf_bytes_used b + (i - ring_buf_bytes_used b) := by omega
      rw [hk, hwin (i - ring_buf_bytes_used b) (by omega),
        if_pos ⟨by omega, by omega⟩]
      have hL : (contents b).length = ring_buf_bytes_used b := contents_length b
      rw [← hL]
      rw [getD_append_ge]
      congr 1
      omega

/-- Specification of the `ring_buf_add` copy loop: data that fits into the
free space is appended to the readable contents. -/
theorem add_loop_spec (fuel : Nat) : ∀ (b : RingBuf) (data : List Nat),
    data.length ≤ fuel → Wf b → data.length ≤ ring_buf_bytes_free b →
    Wf (ring_buf_add_loop fuel b data) ∧
    (ring_buf_add_loop fuel b data).size = b.size ∧
    (ring_buf_add_loop fuel b data).roff = b.roff ∧
    contents (ring_buf_add_loop fuel b data) = contents b ++ data := by
  induction fuel with
  | zero =>
    intro b data hn hwf hfit
    have hnil : data = [] := List.length_eq_zero.mp (by omega)
    subst hnil
    exact ⟨hwf, rfl, rfl, by simp [ring_buf_add_loop]⟩
  | succ f ih =>
    intro b data hn hwf hfit
    by_cases h0 : data.length = 0
    · rw [ring_buf_add_loop, if_pos h0]
      have hnil : data = [] := List.length_eq_zero.mp h0
      subst hnil
      exact ⟨hwf, rfl, rfl, by simp⟩
    · have hwpos : 1 ≤ ring_buf_bytes_writable b :=
        writable_pos b hwf.2.1 hwf.2.2.1 (by omega)
      have hcpos : ¬ min data.length (ring_buf_bytes_writable b) = 0 := by
        omega
      rw [ring_buf_add_loop, if_neg h0, if_neg hcpos]
      have htk : (data.take (min data.length (ring_buf_bytes_writable b))).length
          = min data.length (ring_buf_bytes_writable b) := by
        rw [List.length_take]
        omega
      obtain ⟨hwf1, hsz1, hroff1, hused1, hcont1⟩ :=
        contents_copy b
          { b with
            buf := memcpyAt b.buf b.woff
              (data.take (min data.length (ring_buf_bytes_writable b))),
            woff :=
              if b.woff + min data.length (ring_buf_bytes_writable b) = b.size
              then 0
              else b.woff + min data.length (ring_buf_bytes_writable b) }
          (data.take (min data.length (ring_buf_bytes_writable b)))
          hwf (by rw [htk]; omega) (by rw [htk]; omega) (by rw [htk])
      have hfree1 : ring_buf_bytes_free
          { b with
            buf := memcpyAt b.buf b.woff
              (data.take (min data.length (ring_buf_bytes_writable b))),
            woff :=
              if b.woff + min data.length (ring_buf_bytes_writable b) = b.size
              then 0
              else b.woff + min data.length (ring_buf_bytes_writable b) } =
          ring_buf_bytes_free b - min data.length (ring_buf_bytes_writable b) := by
        unfold ring_buf_bytes_free
        rw [hused1, htk]
        have hub := used_le b hwf.2.1 hwf.2.2.1
        omega
      obtain ⟨hwfR, hszR, hroffR, hcontR⟩ :=
        ih _
          (data.drop (min data.length (ring_buf_bytes_writable b)))
          (by rw [List.length_drop]; omega) hwf1
          (by rw [List.length_drop, hfree1]; omega)
      refine ⟨hwfR, ?_, ?_, ?_⟩
      · rw [hszR, hsz1]
      · rw [hroffR, hroff1]
      · rw [hcontR, hcont1, List.append_assoc, List.take_append_drop]

/-- Specification of the reset branch of `ring_buf_add` (input at least as
long as the usable capacity). -/
theorem add_spec_reset (b : RingBuf) (data : List Nat) (hwf : Wf b)
    (hbig : data.length ≥ b.size - 1) :
    Wf (ring_buf_add b data) ∧ (ring_buf_add b data).size = b.size ∧
    (ring_buf_add b data).roff = 0 ∧ (ring_buf_add b data).woff = b.size - 1 ∧
    contents (ring_buf_add b data) =
      data.drop (data.length - (b.size - 1)) := by
  obtain ⟨hl, hw, hr, hs⟩ := hwf
  rw [ring_buf_add, if_pos hbig]
  have hdl : (data.drop (data.length - (b.size - 1))).length = b.size - 1 := by
    rw [List.length_drop]
    omega
  have hml : (memcpyAt b.buf 0 (data.drop (data.length - (b.size - 1)))).length
      = b.size := by
    rw [memcpyAt_length, hl]
  have husedR : ring_buf_bytes_used
      { b with buf := memcpyAt b.buf 0 (data.drop (data.length - (b.size - 1))),
               woff := b.size - 1, roff := 0 } = b.size - 1 := by
    unfold ring_buf_bytes_used
    simp
  refine ⟨⟨hml, by show b.size - 1 < b.size; omega, by show 0 < b.size; omega, hs⟩,
    rfl, rfl, rfl, ?_⟩
  rw [contents, husedR]
  apply list_eq_of_getD
  · rw [readFrom_length, hdl]
  · intro i hi
    rw [readFrom_length] at hi
    rw [readFrom_getD _ _ _ _ i (by show 0 < b.size; omega) hi]
    have hidx : (0 + i) % b.size = i := by
      rw [Nat.zero_add, Nat.mod_eq_of_lt (by omega)]
    rw [hidx]
    show (memcpyAt b.buf 0 (data.drop (data.length - (b.size - 1)))).getD i 0 = _
    rw [memcpyAt_getD _ _ _ _ (by rw [hl, hdl]; omega),
      if_pos ⟨Nat.zero_le i, by rw [hdl]; omega⟩, Nat.sub_zero]

/-- Specification of `ring_buf_add` when the data fits into the free space. -/
theorem add_spec_fit (b : RingBuf) (data : List Nat) (hwf : Wf b)
    (hfit : data.length ≤ ring_buf_bytes_free b) :
    Wf (ring_buf_add b data) ∧ (ring_buf_add b data).size = b.size ∧
    contents (ring_buf_add b data) = contents b ++ data := by
  have hfd : ring_buf_bytes_free b = b.size - ring_buf_bytes_used b - 1 := rfl
  have hule := used_le b hwf.2.1 hwf.2.2.1
  by_cases hbig : data.length ≥ b.size - 1
  · have hu0 : ring_buf_bytes_used b = 0 := by omega
    have hc0 : contents b = [] := by
      rw [contents, hu0]
      rfl
    have hd0 : data.length - (b.size - 1) = 0 := by omega
    obtain ⟨hwfR, hszR, _, _, hcontR⟩ := add_spec_reset b data hwf hbig
    refine ⟨hwfR, hszR, ?_⟩
    rw [hcontR, hd0, List.drop_zero, hc0, List.nil_append]
  · rw [ring_buf_add, if_neg hbig, if_neg (by omega)]
    exact ⟨(add_loop_spec data.length b data (Nat.le_refl _) hwf hfit).1,
      (add_loop_spec data.length b data (Nat.le_refl _) hwf hfit).2.1,
      (add_loop_spec data.length b data (Nat.le_refl _) hwf hfit).2.2.2⟩

/-- Specification of `ring_buf_add` when the data does not fit but is shorter
than the usable capacity: the oldest `len - free` readable bytes are dropped
first, then all of the data is appended. -/
theorem add_spec_overflow (b : RingBuf) (data : List Nat) (hwf : Wf b)
    (hsmall : data.length < b.size - 1)
    (hover : data.length > ring_buf_bytes_free b) :
    Wf (ring_buf_add b data) ∧ (ring_buf_add b data).size = b.size ∧
    contents (ring_buf_add b data) =
      (contents b).drop (data.length - ring_buf_bytes_free b) ++ data := by
  have hfd : ring_buf_bytes_free b = b.size - ring_buf_bytes_used b - 1 := rfl
  have hule := used_le b hwf.2.1 hwf.2.2.1
  rw [ring_buf_add, if_neg (by omega), if_pos hover]
  obtain ⟨hwf1, hsz1, _, hused1, hcont1⟩ :=
    consume_spec b (data.length - ring_buf_bytes_free b) hwf (by omega)
  have hfree1 : ring_buf_bytes_free
      (ring_buf_consume b (data.length - ring_buf_bytes_free b)) = data.length := by
    have hrfl : ring_buf_bytes_free
        (ring_buf_consume b (data.length - ring_buf_bytes_free b)) =
        (ring_buf_consume b (data.length - ring_buf_bytes_free b)).size -
          ring_buf_bytes_used
            (ring_buf_consume b (data.length - ring_buf_bytes_free b)) - 1 := rfl
    rw [hrfl, hsz1, hused1]
    omega
  obtain ⟨hwfR, hszR, _, hcontR⟩ :=
    add_loop_spec data.length _ data (Nat.le_refl _) hwf1 (by rw [hfree1])
  exact ⟨hwfR, by rw [hszR, hsz1], by rw [hcontR, hcont1]⟩

/-- `ring_buf_add` preserves well-formedness and the size, for any input. -/
theorem add_wf (b : RingBuf) (data : List Nat) (hwf : Wf b) :
    Wf (ring_buf_add b data) ∧ (ring_buf_add b data).size = b.size := by
  by_cases hbig : data.length ≥ b.size - 1
  · have h := add_spec_reset b data hwf hbig
    exact ⟨h.1, h.2.1⟩
  · by_cases hover : data.length > ring_buf_bytes_free b
    · have h := add_spec_overflow b data hwf (by omega) hover
      exact ⟨h.1, h.2.1⟩
    · have h := add_spec_fit b data hwf (by omega)
      exact ⟨h.1, h.2.1⟩

/-- Every operation of a valid trace preserves well-formedness and size. -/
theorem rb_run_wf (ops : List RBOp) : ∀ (b : RingBuf), Wf b →
    rb_trace_ok b ops = true →
    Wf (rb_run b ops) ∧ (rb_run b ops).size = b.size := by
  induction ops with
  | nil => exact fun b hwf _ => ⟨hwf, rfl⟩
  | cons op ops ih =>
    intro b hwf hok
    have hstep : (Wf (rb_step b op) ∧ (rb_step b op).size = b.size) ∧
        rb_trace_ok (rb_step b op) ops = true := by
      cases op with
      | add data =>
        simp only [rb_trace_ok, Bool.true_and] at hok
        exact ⟨add_wf b data hwf, hok⟩
      | consume cnt =>
        simp only [rb_trace_ok, Bool.and_eq_true, decide_eq_true_eq] at hok
        have h := consume_spec b cnt hwf hok.1
        exact ⟨⟨h.1, h.2.1⟩, hok.2⟩
      | clear =>
        simp only [rb_trace_ok, Bool.true_and] at hok
        have hsb := hwf.2.2.2
        exact ⟨⟨⟨hwf.1, by show 0 < b.size; omega, by show 0 < b.size; omega,
          hsb⟩, rfl⟩, hok⟩
    have h := ih (rb_step b op) hstep.1.1 hstep.2
    refine ⟨h.1, ?_⟩
    show (rb_run (rb_step b op) ops).size = b.size
    rw [h.2, hstep.1.2]

/-! ## Claim theorems -/

/-- C4: for every ring buffer and every add(data, length) call, an input at
least as long as the usable capacity resets the buffer and fills it from the
start of storage with exactly the last capacity−1 bytes of the input (write
offset capacity−1, read offset 0); a shorter input that exceeds the free
space first drops exactly length−free oldest buffered bytes and then appends
all of the data; and a buffer of capacity 5 after adding {11,22,33,44} then
{55,66} holds exactly {33,44,55,66} with bytes_used 4 and bytes_free 0. -/
theorem ring_buf_add_overwrite_claim :
    (∀ (b : RingBuf) (data : List Nat), Wf b → data.length ≥ b.size - 1 →
      (ring_buf_add b data).roff = 0 ∧
      (ring_buf_add b data).woff = b.size - 1 ∧
      contents (ring_buf_add b data) =
        data.drop (data.length - (b.size - 1))) ∧
    (∀ (b : RingBuf) (data : List Nat), Wf b → data.length < b.size - 1 →
      data.length > ring_buf_bytes_free b →
      contents (ring_buf_add b data) =
        (contents b).drop (data.length - ring_buf_bytes_free b) ++ data) ∧
    (contents (ring_buf_add (ring_buf_add (ring_buf_init 5)
        [0x11, 0x22, 0x33, 0x44]) [0x55, 0x66]) = [0x33, 0x44, 0x55, 0x66] ∧
     ring_buf_bytes_used (ring_buf_add (ring_buf_add (ring_buf_init 5)
        [0x11, 0x22, 0x33, 0x44]) [0x55, 0x66]) = 4 ∧
     ring_buf_bytes_free (ring_buf_add (ring_buf_add (ring_buf_init 5)
        [0x11, 0x22, 0x33, 0x44]) [0x55, 0x66]) = 0) := by
  refine ⟨?_, ?_, by decide⟩
  · intro b data hwf hbig
    have h := add_spec_reset b data hwf hbig
    exact ⟨h.2.2.1, h.2.2.2.1, h.2.2.2.2⟩
  · intro b data hwf hsmall hover
    exact (add_spec_overflow b data hwf hsmall hover).2.2

theorem ring_buf_add_overwrite_claim_witness :
    ((ring_buf_add (ring_buf_init 5) [1, 2, 3, 4, 5]).roff = 0 ∧
     (ring_buf_add (ring_buf_init 5) [1, 2, 3, 4, 5]).woff = 4 ∧
     contents (ring_buf_add (ring_buf_init 5) [1, 2, 3, 4, 5]) = [2, 3, 4, 5]) ∧
    contents (ring_buf_add (ring_buf_add (ring_buf_init 5) [1, 2, 3]) [9, 10]) =
      [2, 3, 9, 10] := by
  constructor
  · obtain ⟨h1, h2, h3⟩ := ring_buf_add_overwrite_claim.1 (ring_buf_init 5)
      [1, 2, 3, 4, 5] (by decide) (by decide)
    refine ⟨h1, ?_, ?_⟩
    · rw [h2]
      decide
    · rw [h3]
      decide
  · have h := ring_buf_add_overwrite_claim.2.1
      (ring_buf_add (ring_buf_init 5) [1, 2, 3]) [9, 10] (by decide) (by decide)
      (by decide)
    rw [h]
    decide

/-- C5: for every valid operation trace from an initialized buffer the state
invariant holds: both offsets lie in [0, size), bytes_used equals
(woff − roff) mod size and is at most size − 1, emptiness is exactly
roff = woff and exactly bytes_used = 0, and consuming bytes_used bytes
resets both offsets to 0. -/
theorem ring_buf_trace_invariant (n : Nat) (ops : List RBOp) (b : RingBuf)
    (hn : 2 ≤ n) (hok : rb_trace_ok (ring_buf_init n) ops = true)
    (hb : b = rb_run (ring_buf_init n) ops) :
    b.roff < b.size ∧ b.woff < b.size ∧
    ring_buf_bytes_used b = (b.size + b.woff - b.roff) % b.size ∧
    ring_buf_bytes_used b ≤ b.size - 1 ∧
    (ring_buf_empty b = true ↔ b.roff = b.woff) ∧
    (ring_buf_empty b = true ↔ ring_buf_bytes_used b = 0) ∧
    (ring_buf_consume b (ring_buf_bytes_used b)).roff = 0 ∧
    (ring_buf_consume b (ring_buf_bytes_used b)).woff = 0 := by
  have hinit : Wf (ring_buf_init n) := by
    refine ⟨?_, ?_, ?_, ?_⟩
    · simp [ring_buf_init]
    · show 0 < n; omega
    · show 0 < n; omega
    · show 2 ≤ n; omega
  obtain ⟨hwf, _⟩ := rb_run_wf ops (ring_buf_init n) hinit hok
  rw [← hb] at hwf
  obtain ⟨hl, hw, hr, hs⟩ := hwf
  refine ⟨hr, hw, used_eq_mod b hw hr, used_le b hw hr, ?_, ?_, ?_, ?_⟩
  · simp only [ring_buf_empty, beq_iff_eq]
    exact ⟨fun h => h.symm, fun h => h.symm⟩
  · simp only [ring_buf_empty, beq_iff_eq]
    unfold ring_buf_bytes_used
    split_ifs <;> omega
  · simp only [ring_buf_consume]
    rw [woff_canonical b hw hr, if_pos rfl]
  · simp only [ring_buf_consume]
    rw [woff_canonical b hw hr, if_pos rfl]

theorem ring_buf_trace_invariant_witness :
    2 ≤ 5 ∧
    rb_trace_ok (ring_buf_init 5)
      [RBOp.add [17, 34, 51], RBOp.consume 2, RBOp.add [9, 9, 9], RBOp.clear,
       RBOp.add [7]] = true ∧
    ring_buf_bytes_used
      (rb_run (ring_buf_init 5)
        [RBOp.add [17, 34, 51], RBOp.consume 2, RBOp.add [9, 9, 9], RBOp.clear,
         RBOp.add [7]]) ≤
      (rb_run (ring_buf_init 5)
        [RBOp.add [17, 34, 51], RBOp.consume 2, RBOp.add [9, 9, 9], RBOp.clear,
         RBOp.add [7]]).size - 1 :=
  ⟨by decide, by decide,
    (ring_buf_trace_invariant 5
      [RBOp.add [17, 34, 51], RBOp.consume 2, RBOp.add [9, 9, 9], RBOp.clear,
       RBOp.add [7]] _ (by decide) (by decide) rfl).2.2.2.1⟩

/-- C1: the SX1231 variable-length receive path accepts every length prefix
from 1 to 65 = SX1231_FIFO_SIZE − 1 and then stores header plus payload —
up to 66 bytes, the capacity the spec fixes for this chips scratch buffer —
but the scratch array of `_receive_frame` is declared `uint8_t buf[64]`
(src/src/sx1231.c:276): at prefix 65 the reception is accepted and stores 66
scratch bytes (indices 0..65), so the stores at indices 64 and 65 are out of
bounds of the declared 64-byte array. -/
theorem sx1231_receive_scratch_overflow :
    (sx1231_receive_frame 0 (65 :: List.replicate 65 0)
      (ring_buf_init 8)).accepted = true ∧
    (sx1231_receive_frame 0 (65 :: List.replicate 65 0)
      (ring_buf_init 8)).writes = 66 ∧
    SX1231_FIFO_SIZE = 66 ∧
    sx1231_scratch_size = 64 ∧
    64 < (sx1231_receive_frame 0 (65 :: List.replicate 65 0)
      (ring_buf_init 8)).writes := by
  have hbody : ∀ hdrlen pktlen scratch rx,
      (sx1231_receive_body hdrlen pktlen scratch rx).accepted = true ∧
      (sx1231_receive_body hdrlen pktlen scratch rx).writes = hdrlen + pktlen := by
    intro hdrlen pktlen scratch rx
    simp only [sx1231_receive_body]
    constructor <;> split_ifs <;> rfl
  have hrecv : sx1231_receive_frame 0 (65 :: List.replicate 65 0)
      (ring_buf_init 8) =
      sx1231_receive_body 1 65
        (65 :: ((65 :: List.replicate 65 0).drop 1).take 65) (ring_buf_init 8) := by
    simp only [sx1231_receive_frame, List.getD_cons_zero]
    rw [if_pos trivial, if_neg (by decide)]
  rw [hrecv]
  refine ⟨(hbody _ _ _ _).1, (hbody _ _ _ _).2, rfl, rfl, ?_⟩
  rw [(hbody _ _ _ _).2]
  decide

/-- C3: in SX1231 variable-length transmission with the full 3-byte frame
{02 AA BB} buffered, `_send_frame` drains all hdrlen+pktlen = 3 bytes from
the ring buffer but passes only pktlen = 2 bytes {02 AA} to the RegFifo
write, losing the final payload byte; and with only the 2-byte partial frame
{02 AA} buffered the gate `pktlen <= bytes_used` still passes, so 3 bytes are
drained from a buffer holding 2 (violating the consume assertion), instead of
deferring the send. -/
theorem sx1231_send_frame_short_write :
    (sx1231_send_frame 0 (ring_buf_add (ring_buf_init 8)
      [2, 0xAA, 0xBB])).result = RfErr.ok ∧
    (sx1231_send_frame 0 (ring_buf_add (ring_buf_init 8)
      [2, 0xAA, 0xBB])).fifoWrite = some [2, 0xAA] ∧
    (sx1231_send_frame 0 (ring_buf_add (ring_buf_init 8)
      [2, 0xAA, 0xBB])).drained = 3 ∧
    ring_buf_bytes_used (ring_buf_add (ring_buf_init 8) [2, 0xAA, 0xBB]) = 3 ∧
    (sx1231_send_frame 0 (ring_buf_add (ring_buf_init 8)
      [2, 0xAA])).drained = 3 ∧
    (sx1231_send_frame 0 (ring_buf_add (ring_buf_init 8)
      [2, 0xAA])).fifoWrite = some [2, 0xAA] ∧
    ring_buf_bytes_used (ring_buf_add (ring_buf_init 8) [2, 0xAA]) = 2 := by
  decide

/-- C8: the plain-form parser of parse_reg_file accepts only a space at the
separator position (`bp[2] != ' '` is an error), so the tab-separated line
`36<TAB>2D` — which the README documents and which the claim says parses to
the same entry as `36 2D` — is rejected, while the space form parses to
(0x36, 0x2D). -/
theorem parse_line_tab_rejected :
    parse_line ['3', '6', '\t', '2', 'D'] = LineRes.err ∧
    parse_line ['3', '6', ' ', '2', 'D'] = LineRes.entry 0x36 0x2D := by
  decide

/-- Exchange a leading drop with a take, used to compare the C loop range
with the claim wording. -/
theorem drop_one_take (s : List Nat) (n : Nat) :
    (s.drop 1).take (n - 1) = (s.take n).drop 1 := by
  cases s with
  | nil => simp
  | cons x xs =>
    cases n with
    | zero => simp
    | succ m => simp

/-- C2 (counterexample): in variable-length mode the CRC check of the code
and the CRC check the claim describes disagree on the packet with length
prefix 2 and payload 00 00.  Per the claim the CRC range is empty (register
stays 0) and the final two bytes 00 00 match it, so the packet passes; the
code instead compares the stored bytes at offsets 0 and 1 — the header byte
2 and the first payload byte — and drops the packet. -/
theorem sx1231_crc_indexing_disagrees :
    sx1231_crc_drop 1 2 [2, 0, 0] = true ∧
    sx1231_crc_drop_spec 1 [2, 0, 0] = false ∧
    (sx1231_receive_frame 0 [2, 0, 0] (ring_buf_init 8)).delivered = false ∧
    (sx1231_receive_frame 0 [2, 0, 0] (ring_buf_init 8)).rx =
      ring_buf_init 8 := by
  decide

/-- C2 (amended): the local CRC-16 check of `_receive_frame`, characterized
per mode.  In fixed-length mode (header length 0) it is exactly the check
the spec describes.  A payload shorter than 2 bytes is an immediate CRC
failure in either mode.  In variable-length mode (header length 1) the end
offsets do not account for the header byte: the CRC covers the stored bytes
from offset 1 up to but not including offset pktlen − 2, and the compared
big-endian pair sits at offsets pktlen − 2 and pktlen − 1 of the stored
buffer — one position before the final two bytes — so the last payload byte
is never examined.  On any CRC failure the packet is dropped, not appended. -/
theorem sx1231_crc_check_characterization :
    (∀ (pktlen : Nat) (scratch : List Nat), scratch.length = pktlen →
      sx1231_crc_drop 0 pktlen scratch = sx1231_crc_drop_spec 0 scratch) ∧
    (∀ (hdrlen pktlen : Nat) (scratch : List Nat), pktlen < 2 →
      sx1231_crc_drop hdrlen pktlen scratch = true) ∧
    (∀ (pktlen : Nat) (scratch : List Nat), 2 ≤ pktlen →
      (sx1231_crc_drop 1 pktlen scratch = false ↔
        (scratch.getD (pktlen - 2) 0 =
          (crc16_calc ((scratch.take (pktlen - 2)).drop 1) >>> 8) &&& 0xff ∧
         scratch.getD (pktlen - 1) 0 =
          crc16_calc ((scratch.take (pktlen - 2)).drop 1) &&& 0xff))) ∧
    (∀ (hdrlen pktlen : Nat) (scratch : List Nat) (rx : RingBuf),
      (sx1231_receive_body hdrlen pktlen scratch rx).drop = true →
      (sx1231_receive_body hdrlen pktlen scratch rx).rx = rx ∧
      (sx1231_receive_body hdrlen pktlen scratch rx).delivered = false) := by
  refine ⟨?_, ?_, ?_, ?_⟩
  · intro pktlen scratch hlen
    subst hlen
    simp only [sx1231_crc_drop, sx1231_crc_drop_spec, List.drop_zero,
      Nat.sub_zero]
    by_cases h2 : scratch.length < 2
    · rw [if_pos h2, if_pos h2]
    · rw [if_neg h2, if_neg h2]
      have h1 : scratch.length - 2 + 1 = scratch.length - 1 := by omega
      rw [h1]
  · intro hdrlen pktlen scratch h2
    simp only [sx1231_crc_drop]
    rw [if_pos h2]
  · intro pktlen scratch h2
    simp only [sx1231_crc_drop]
    rw [if_neg (by omega), drop_one_take scratch (pktlen - 2)]
    have h1 : pktlen - 2 + 1 = pktlen - 1 := by omega
    rw [h1]
    simp only [Bool.or_eq_false_iff, bne_eq_false_iff_eq]
  · intro hdrlen pktlen scratch rx hdrop
    simp only [sx1231_receive_body] at hdrop ⊢
    by_cases hcond : sx1231_crc_drop hdrlen pktlen scratch = false ∧
        hdrlen + (if pktlen < 2 then pktlen else pktlen - 2) ≤
          ring_buf_bytes_free rx
    · exfalso
      rw [if_pos hcond] at hdrop
      have hd : sx1231_crc_drop hdrlen pktlen scratch = true := hdrop
      rw [hcond.1] at hd
      exact absurd hd (by simp)
    · rw [if_neg hcond] at hdrop ⊢
      exact ⟨rfl, rfl⟩

theorem sx1231_crc_check_characterization_witness :
    ([(0 : Nat), 0].length = 2 ∧
      sx1231_crc_drop 0 2 [0, 0] = sx1231_crc_drop_spec 0 [0, 0]) ∧
    ((1 : Nat) < 2 ∧ sx1231_crc_drop 1 1 [9] = true) ∧
    ((2 : Nat) ≤ 2 ∧
      (sx1231_crc_drop 1 2 [2, 0, 0] = false ↔
        ([2, 0, 0].getD 0 0 =
          (crc16_calc (([2, 0, 0].take 0).drop 1) >>> 8) &&& 0xff ∧
         [2, 0, 0].getD 1 0 =
          crc16_calc (([2, 0, 0].take 0).drop 1) &&& 0xff))) ∧
    ((sx1231_receive_body 1 2 [2, 0, 0] (ring_buf_init 8)).drop = true ∧
      (sx1231_receive_body 1 2 [2, 0, 0] (ring_buf_init 8)).rx =
        ring_buf_init 8 ∧
      (sx1231_receive_body 1 2 [2, 0, 0] (ring_buf_init 8)).delivered =
        false) :=
  ⟨⟨by decide, sx1231_crc_check_characterization.1 2 [0, 0] (by decide)⟩,
   ⟨by decide, sx1231_crc_check_characterization.2.1 1 1 [9] (by decide)⟩,
   ⟨by decide, sx1231_crc_check_characterization.2.2.1 2 [2, 0, 0] (by decide)⟩,
   ⟨by decide,
    (sx1231_crc_check_characterization.2.2.2 1 2 [2, 0, 0] (ring_buf_init 8)
      (by decide)).1,
    (sx1231_crc_check_characterization.2.2.2 1 2 [2, 0, 0] (ring_buf_init 8)
      (by decide)).2⟩⟩

/-- C9: for every delivered variable-length frame the appended block keeps
the original over-the-air length prefix L as its header byte but carries
only L − 2 payload bytes (the two trailing CRC bytes are cut), so the prefix
the client reads exceeds the delivered payload byte count by exactly 2. -/
theorem sx1231_var_delivery_header_gap
    (L : Nat) (payload : List Nat) (rx : RingBuf)
    (hwf : Wf rx) (hL1 : 1 ≤ L) (hL2 : L ≤ 65) (hlen : L ≤ payload.length)
    (hdel : (sx1231_receive_frame 0 (L :: payload) rx).delivered = true) :
    contents (sx1231_receive_frame 0 (L :: payload) rx).rx =
      contents rx ++ (L :: payload.take (L - 2)) ∧
    2 ≤ L ∧
    (L :: payload.take (L - 2)).length = 1 + (L - 2) ∧
    L - (L - 2) = 2 := by
  have hrecv : sx1231_receive_frame 0 (L :: payload) rx =
      sx1231_receive_body 1 L (L :: payload.take L) rx := by
    simp only [sx1231_receive_frame, List.getD_cons_zero]
    rw [if_pos trivial,
      if_neg (by simp only [SX1231_FIFO_SIZE]; omega)]
    simp
  rw [hrecv] at hdel ⊢
  simp only [sx1231_receive_body] at hdel ⊢
  by_cases hcond : sx1231_crc_drop 1 L (L :: payload.take L) = false ∧
      1 + (if L < 2 then L else L - 2) ≤ ring_buf_bytes_free rx
  · have hL2' : ¬ L < 2 := by
      intro hlt
      have hdropT : sx1231_crc_drop 1 L (L :: payload.take L) = true := by
        simp only [sx1231_crc_drop]
        rw [if_pos hlt]
      have hfalse := hcond.1
      rw [hdropT] at hfalse
      exact absurd hfalse (by simp)
    rw [if_pos hcond]
    have hfit : (L :: payload.take (L - 2)).length ≤ ring_buf_bytes_free rx := by
      have := hcond.2
      rw [if_neg hL2'] at this
      simp only [List.length_cons, List.length_take]
      omega
    have happ : (L :: payload.take L).take (1 + (L - 2)) =
        L :: payload.take (L - 2) := by
      have h1 : 1 + (L - 2) = (L - 2) + 1 := by omega
      rw [h1, List.take_succ_cons, List.take_take]
      have h2 : min (L - 2) L = L - 2 := by omega
      rw [h2]
    have hgoal : contents (ring_buf_add rx
        ((L :: payload.take L).take (1 + (if L < 2 then L else L - 2)))) =
        contents rx ++ (L :: payload.take (L - 2)) := by
      rw [if_neg hL2', happ]
      exact (add_spec_fit rx (L :: payload.take (L - 2)) hwf hfit).2.2
    refine ⟨hgoal, by omega, ?_, by omega⟩
    simp only [List.length_cons, List.length_take]
    omega
  · rw [if_neg hcond] at hdel
    simp only at hdel
    exact absurd hdel (by simp)

theorem sx1231_var_delivery_header_gap_witness :
    (Wf (ring_buf_init 8) ∧ 1 ≤ 3 ∧ 3 ≤ 65 ∧ 3 ≤ [0, 0, 7].length ∧
      (sx1231_receive_frame 0 (3 :: [0, 0, 7]) (ring_buf_init 8)).delivered
        = true) ∧
    contents (sx1231_receive_frame 0 (3 :: [0, 0, 7]) (ring_buf_init 8)).rx =
      contents (ring_buf_init 8) ++ (3 :: [0, 0, 7].take 1) :=
  ⟨⟨by decide, by decide, by decide, by decide, by decide⟩,
   (sx1231_var_delivery_header_gap 3 [0, 0, 7] (ring_buf_init 8)
     (by decide) (by decide) (by decide) (by decide) (by decide)).1⟩

/-- C7: whenever the Si443x handle path sees a variable-length in-band
payload length above 61 = 64 − 3, or DEVICE_STATUS reports FIFO
overflow/underflow after the payload read, the reception is aborted (the RX
ring buffer is untouched), the RX-FIFO recovery write sequence runs — RX
disabled if it was enabled, FFCLRRX pulsed set then cleared, RX re-enabled —
and the call returns success. -/
theorem si443x_handle_recovery (inp : Si443xIn) (rx : RingBuf)
    (hready : inp.devStatus &&& DEVICE_STATUS_RXFFEM = 0) :
    (inp.fixpklen = 0 → inp.headerBytes.getD inp.txhdlen 0 > 61 →
      si443x_rf_handle inp rx =
        { result := RfErr.ok, rx := rx,
          regWrites := si443x_reset_rx_fifo_writes inp.ctrl1 inp.ctrl2 }) ∧
    (inp.devStatus2 &&& (DEVICE_STATUS_FFOVFL ||| DEVICE_STATUS_FFUNFL) ≠ 0 →
      si443x_rf_handle inp rx =
        { result := RfErr.ok, rx := rx,
          regWrites := si443x_reset_rx_fifo_writes inp.ctrl1 inp.ctrl2 }) ∧
    si443x_reset_rx_fifo_writes inp.ctrl1 inp.ctrl2 =
      (if inp.ctrl1 &&& OPERATING_MODE_AND_FUNCTION_CONTROL_1_RXON ≠ 0 then
        [(SiReg.opCtrl1, inp.ctrl1 &&&
            (0xFF ^^^ OPERATING_MODE_AND_FUNCTION_CONTROL_1_RXON)),
         (SiReg.opCtrl2, inp.ctrl2 |||
            OPERATING_MODE_AND_FUNCTION_CONTROL_2_FFCLRRX),
         (SiReg.opCtrl2, inp.ctrl2 &&&
            (0xFF ^^^ OPERATING_MODE_AND_FUNCTION_CONTROL_2_FFCLRRX)),
         (SiReg.opCtrl1, inp.ctrl1)]
       else
        [(SiReg.opCtrl2, inp.ctrl2 |||
            OPERATING_MODE_AND_FUNCTION_CONTROL_2_FFCLRRX),
         (SiReg.opCtrl2, inp.ctrl2 &&&
            (0xFF ^^^ OPERATING_MODE_AND_FUNCTION_CONTROL_2_FFCLRRX))]) := by
  refine ⟨?_, ?_, ?_⟩
  · intro hfix hbig
    simp only [si443x_rf_handle, hfix]
    rw [if_neg (by simp [hready]),
      if_pos ⟨by simp, by simpa using hbig⟩]
  · intro hover
    simp only [si443x_rf_handle]
    rw [if_neg (by simp [hready])]
    by_cases hfirst : inp.fixpklen = 0 ∧
        inp.headerBytes.getD
          (inp.txhdlen + (if inp.fixpklen = 0 then 1 else 0) - 1) 0 >
          SI443X_FIFO_SIZE - 3
    · rw [if_pos hfirst]
    · rw [if_neg hfirst, if_pos hover]
  · simp only [si443x_reset_rx_fifo_writes]
    split_ifs <;> rfl

theorem si443x_handle_recovery_witness :
    ((⟨0, 0, 0, [99], [], 0, 5, 0⟩ : Si443xIn).devStatus &&&
        DEVICE_STATUS_RXFFEM = 0 ∧
      (⟨0, 0, 0, [99], [], 0, 5, 0⟩ : Si443xIn).fixpklen = 0 ∧
      (⟨0, 0, 0, [99], [], 0, 5, 0⟩ : Si443xIn).headerBytes.getD 0 0 > 61) ∧
    si443x_rf_handle ⟨0, 0, 0, [99], [], 0, 5, 0⟩ (ring_buf_init 8) =
      { result := RfErr.ok, rx := ring_buf_init 8,
        regWrites := si443x_reset_rx_fifo_writes 5 0 } :=
  ⟨⟨by decide, by decide, by decide⟩,
   (si443x_handle_recovery ⟨0, 0, 0, [99], [], 0, 5, 0⟩ (ring_buf_init 8)
     (by decide)).1 rfl (by decide)⟩

/-! ### Sparse buffer scan lemmas (for the configure-runs claim) -/

theorem next_valid_go_spec (regs : SparseBuf) : ∀ (fuel off o : Nat),
    sparse_buf_next_valid_go regs fuel off = some o →
    off ≤ o ∧ o < regs.size ∧ sparse_buf_is_valid regs o = true := by
  intro fuel
  induction fuel with
  | zero =>
    intro off o h
    simp [sparse_buf_next_valid_go] at h
  | succ f ih =>
    intro off o h
    rw [sparse_buf_next_valid_go] at h
    split_ifs at h with h1 h2
    · injection h with h
      subst h
      exact ⟨Nat.le_refl _, h1, h2⟩
    · obtain ⟨hle, hlt, hv⟩ := ih (off + 1) o h
      exact ⟨by omega, hlt, hv⟩

theorem valid_length_go_le (regs : SparseBuf) : ∀ (fuel off : Nat),
    off ≤ regs.size →
    off + sparse_buf_valid_length_go regs fuel off ≤ regs.size := by
  intro fuel
  induction fuel with
  | zero =>
    intro off h
    simpa [sparse_buf_valid_length_go] using h
  | succ f ih =>
    intro off h
    rw [sparse_buf_valid_length_go]
    split_ifs with h1 h2
    · have := ih (off + 1) (by omega)
      omega
    · omega
    · omega

theorem valid_length_go_pos (regs : SparseBuf) (fuel off : Nat)
    (hf : 1 ≤ fuel) (h1 : off < regs.size)
    (h2 : sparse_buf_is_valid regs off = true) :
    1 ≤ sparse_buf_valid_length_go regs fuel off := by
  cases fuel with
  | zero => omega
  | succ f =>
    rw [sparse_buf_valid_length_go, if_pos h1, if_pos h2]
    omega

theorem valid_length_go_last (regs : SparseBuf) : ∀ (fuel off : Nat),
    1 ≤ sparse_buf_valid_length_go regs fuel off →
    sparse_buf_is_valid regs
      (off + sparse_buf_valid_length_go regs fuel off - 1) = true := by
  intro fuel
  induction fuel with
  | zero =>
    intro off h
    simp [sparse_buf_valid_length_go] at h
  | succ f ih =>
    intro off h
    rw [sparse_buf_valid_length_go] at h ⊢
    split_ifs at h ⊢ with h1 h2
    · by_cases hg : sparse_buf_valid_length_go regs f (off + 1) = 0
      · rw [hg]
        simpa using h2
      · have hlast := ih (off + 1) (by omega)
        have heq : off + (sparse_buf_valid_length_go regs f (off + 1) + 1) - 1 =
            off + 1 + sparse_buf_valid_length_go regs f (off + 1) - 1 := by
          omega
        rw [heq]
        exact hlast
    · omega
    · omega

theorem configure_runs_go_mem (regs : SparseBuf) : ∀ (fuel off : Nat)
    (p : Nat × Nat), p ∈ configure_runs_go regs fuel off →
    p.1 < regs.size ∧ 1 ≤ p.2 ∧ p.1 + p.2 ≤ regs.size ∧
    sparse_buf_is_valid regs (p.1 + p.2 - 1) = true := by
  intro fuel
  induction fuel with
  | zero =>
    intro off p hp
    simp [configure_runs_go] at hp
  | succ f ih =>
    intro off p hp
    rw [configure_runs_go] at hp
    cases hnv : sparse_buf_next_valid regs off with
    | none =>
      rw [hnv] at hp
      simp at hp
    | some o =>
      rw [hnv] at hp
      rcases List.mem_cons.mp hp with hp | hp
      · subst hp
        obtain ⟨hle, hlt, hv⟩ := next_valid_go_spec regs (regs.size + 1) off o hnv
        dsimp only
        refine ⟨hlt, ?_, ?_, ?_⟩
        · exact valid_length_go_pos regs (regs.size + 1) o (by omega) hlt hv
        · exact valid_length_go_le regs (regs.size + 1) o (by omega)
        · exact valid_length_go_last regs (regs.size + 1) o
            (valid_length_go_pos regs (regs.size + 1) o (by omega) hlt hv)
      · exact ih _ p hp

set_option maxRecDepth 4096 in
/-- C6 (counterexample): a successfully parsed configuration file assigning
all 127 legal addresses 0x00..0x7E makes the apply step issue a single run
(address 0, length 0x7F = 127), and that run violates the checked
precondition of the SPI transfer primitive (`len < 0x7F` fails). -/
theorem configure_precondition_violated :
    (parse_reg_file fullCfgLines (sparse_buf_init 128)).1 = true ∧
    (parse_reg_file fullCfgLines (sparse_buf_init 128)).2.size = 128 ∧
    sparse_buf_is_valid (parse_reg_file fullCfgLines (sparse_buf_init 128)).2
      0x7F = false ∧
    configure_runs (parse_reg_file fullCfgLines (sparse_buf_init 128)).2 =
      [(0, 0x7F)] ∧
    spi_transfer_precond 0 0x7F = false := by
  decide

/-- C6 (amended): for every sparse register buffer of size 128 in which the
reserved address 0x7F is not valid — the shape every successful
configuration-file parse produces — every (address, length) run the
configure loop issues satisfies address + length ≤ 0x7F and has the address
MSB clear, and satisfies the full checked precondition of the SPI transfer
primitive in every case except the single run (0, 0x7F) that arises when all
127 writable addresses are valid at once, where `len < 0x7F` fails. -/
theorem configure_runs_spi_precondition (regs : SparseBuf)
    (hsz : regs.size = 128)
    (hres : sparse_buf_is_valid regs 0x7F = false) :
    ∀ p ∈ configure_runs regs, p.1 + p.2 ≤ 0x7F ∧ (p.1 &&& 0x80) = 0 ∧
      (p ≠ (0, 0x7F) → spi_transfer_precond p.1 p.2 = true) := by
  intro p hp
  obtain ⟨hlt, hpos, hle, hlast⟩ := configure_runs_go_mem regs _ 0 p hp
  have hne127 : p.1 + p.2 - 1 ≠ 127 := by
    intro he
    rw [he] at hlast
    exact Bool.false_ne_true (hres.symm.trans hlast)
  have hle127 : p.1 + p.2 ≤ 0x7F := by
    rw [hsz] at hle
    omega
  have haddr : p.1 &&& 0x80 = 0 := by
    have h2 : (0x80 : Nat) = 2 ^ 7 := by norm_num
    have h3 : p.1 < 2 ^ 7 := by
      norm_num
      omega
    rw [h2, Nat.and_two_pow, Nat.testBit_lt_two_pow h3]
    simp
  refine ⟨hle127, haddr, ?_⟩
  intro hne
  have hlen : p.2 < 0x7F := by
    rcases Nat.lt_or_ge p.2 0x7F with h | h
    · exact h
    · exfalso
      apply hne
      have hp1 : p.1 = 0 := by omega
      have hp2 : p.2 = 0x7F := by omega
      cases p
      simp only [Prod.mk.injEq]
      simp only at hp1 hp2
      exact ⟨hp1, hp2⟩
  simp only [spi_transfer_precond, Bool.and_eq_true, Bool.or_eq_true,
    beq_iff_eq, decide_eq_true_eq]
  exact ⟨haddr, Or.inr ⟨hlen, by omega⟩⟩

theorem configure_runs_spi_precondition_witness :
    ((parse_reg_file [['0', '5', ' ', '1', '1'], ['0', '6', ' ', '2', '2']]
        (sparse_buf_init 128)).2.size = 128 ∧
      sparse_buf_is_valid
        (parse_reg_file [['0', '5', ' ', '1', '1'], ['0', '6', ' ', '2', '2']]
          (sparse_buf_init 128)).2 0x7F = false ∧
      (5, 2) ∈ configure_runs
        (parse_reg_file [['0', '5', ' ', '1', '1'], ['0', '6', ' ', '2', '2']]
          (sparse_buf_init 128)).2 ∧
      ((5, 2) : Nat × Nat) ≠ (0, 0x7F)) ∧
    (5 + 2 ≤ 0x7F ∧ ((5 : Nat) &&& 0x80) = 0 ∧
      spi_transfer_precond 5 2 = true) :=
  ⟨⟨by decide, by decide, by decide, by decide⟩,
   by
    have h := configure_runs_spi_precondition
      (parse_reg_file [['0', '5', ' ', '1', '1'], ['0', '6', ' ', '2', '2']]
        (sparse_buf_init 128)).2 (by decide) (by decide)
      (5, 2) (by decide)
    exact ⟨h.1, h.2.1, h.2.2 (by decide)⟩⟩

/-! ### Parser loop lemmas (for the non-atomicity claim) -/

theorem process_lines_append_err (ls1 : List (List Char)) :
    ∀ (b b1 : SparseBuf) (bad : List Char) (rest : List (List Char)),
    process_lines ls1 b = (true, b1) → parse_line bad = LineRes.err →
    process_lines (ls1 ++ bad :: rest) b = (false, b1) := by
  induction ls1 with
  | nil =>
    intro b b1 bad rest hp hbad
    simp only [process_lines, Prod.mk.injEq] at hp
    rw [List.nil_append]
    simp only [process_lines, hbad]
    rw [hp.2]
  | cons l ls ih =>
    intro b b1 bad rest hp hbad
    cases hl : parse_line l with
    | skip =>
      simp only [process_lines, hl] at hp
      simp only [List.cons_append, process_lines, hl]
      exact ih b b1 bad rest hp hbad
    | entry a v =>
      simp only [process_lines, hl] at hp
      simp only [List.cons_append, process_lines, hl]
      cases hw : sparse_buf_write b a v with
      | none =>
        rw [hw] at hp
        have hp2 : ((false : Bool), b) = ((true : Bool), b1) := hp
        simp at hp2
      | some r =>
        rw [hw] at hp
        have hp2 : process_lines ls r = (true, b1) := hp
        have hg : process_lines (ls ++ bad :: rest) r = (false, b1) :=
          ih r b1 bad rest hp2 hbad
        exact hg
    | err =>
      simp only [process_lines, hl] at hp
      simp at hp

theorem sparse_buf_write_valid (b r : SparseBuf) (a v : Nat)
    (hw : sparse_buf_write b a v = some r) :
    r.size = b.size ∧ r.valid.length = b.valid.length ∧
    (∀ x, sparse_buf_is_valid b x = true → sparse_buf_is_valid r x = true) ∧
    (a < b.valid.length → sparse_buf_is_valid r a = true) := by
  unfold sparse_buf_write at hw
  split_ifs at hw with h
  · injection hw with hw
    subst hw
    refine ⟨rfl, by simp, ?_, ?_⟩
    · intro x hx
      unfold sparse_buf_is_valid at hx ⊢
      dsimp only
      by_cases hxa : a = x
      · subst hxa
        by_cases hax : a < b.valid.length
        · rw [getD_set_eq b.valid a true false hax]
        · rw [List.getD_eq_default] at hx
          · exact absurd hx (by simp)
          · omega
      · rw [getD_set_ne b.valid a x true false hxa]
        exact hx
    · intro hax
      unfold sparse_buf_is_valid
      dsimp only
      rw [getD_set_eq b.valid a true false hax]

theorem process_lines_valid (ls : List (List Char)) :
    ∀ (b b1 : SparseBuf), b.valid.length = b.size →
    process_lines ls b = (true, b1) →
    (b1.size = b.size ∧ b1.valid.length = b.valid.length ∧
      (∀ x, sparse_buf_is_valid b x = true →
        sparse_buf_is_valid b1 x = true)) ∧
    (∀ l ∈ ls, ∀ a v, parse_line l = LineRes.entry a v →
      sparse_buf_is_valid b1 a = true) := by
  induction ls with
  | nil =>
    intro b b1 hlen hp
    simp only [process_lines, Prod.mk.injEq] at hp
    rw [← hp.2]
    exact ⟨⟨rfl, rfl, fun x hx => hx⟩, by simp⟩
  | cons l ls ih =>
    intro b b1 hlen hp
    cases hl : parse_line l with
    | skip =>
      simp only [process_lines, hl] at hp
      obtain ⟨hstruct, hmem⟩ := ih b b1 hlen hp
      refine ⟨hstruct, ?_⟩
      intro l2 hl2 a v he
      rcases List.mem_cons.mp hl2 with hl2 | hl2
      · subst hl2
        rw [hl] at he
        exact absurd he (by simp)
      · exact hmem l2 hl2 a v he
    | err =>
      simp only [process_lines, hl] at hp
      simp at hp
    | entry a v =>
      simp only [process_lines, hl] at hp
      cases hw : sparse_buf_write b a v with
      | none =>
        rw [hw] at hp
        have hp2 : ((false : Bool), b) = ((true : Bool), b1) := hp
        simp at hp2
      | some r =>
        rw [hw] at hp
        have hp2 : process_lines ls r = (true, b1) := hp
        clear hp
        rename' hp2 => hp
        obtain ⟨hsz, hvl, hmono, hset⟩ := sparse_buf_write_valid b r a v hw
        have halt : a < b.size := by
          unfold sparse_buf_write at hw
          split_ifs at hw with hout
          omega
        obtain ⟨hstruct, hmem⟩ := ih r b1 (by rw [hvl, hlen, hsz]) hp
        refine ⟨⟨by rw [hstruct.1, hsz], by rw [hstruct.2.1, hvl], ?_⟩, ?_⟩
        · intro x hx
          exact hstruct.2.2 x (hmono x hx)
        · intro l2 hl2 a2 v2 he
          rcases List.mem_cons.mp hl2 with hl2 | hl2
          · subst hl2
            rw [hl] at he
            injection he with ha hv
            subst ha
            exact hstruct.2.2 a (hset (by omega))
          · exact hmem l2 hl2 a2 v2 he

/-- C10: parse_reg_file is not atomic on failure.  It always starts by
clearing the validity bitmap; when a later line fails the call returns an
error while the buffer keeps exactly the entries of the lines before the
failing one — in particular every address parsed from an earlier line is
still valid in the resulting buffer. -/
theorem parse_reg_file_not_atomic
    (buf0 b1 : SparseBuf) (ls1 : List (List Char)) (bad : List Char)
    (rest : List (List Char))
    (hpre : process_lines ls1 (sparse_buf_clear buf0) = (true, b1))
    (hbad : parse_line bad = LineRes.err) :
    parse_reg_file (ls1 ++ bad :: rest) buf0 = (false, b1) ∧
    ∀ l ∈ ls1, ∀ a v, parse_line l = LineRes.entry a v →
      sparse_buf_is_valid b1 a = true := by
  refine ⟨process_lines_append_err ls1 _ b1 bad rest hpre hbad, ?_⟩
  exact (process_lines_valid ls1 _ b1 (by simp [sparse_buf_clear]) hpre).2

theorem parse_reg_file_not_atomic_witness :
    (process_lines [['0', '2', ' ', '1', '1']]
        (sparse_buf_clear ⟨4, [0, 0, 0, 0], [false, true, false, false]⟩) =
      (true, (process_lines [['0', '2', ' ', '1', '1']]
        (sparse_buf_clear ⟨4, [0, 0, 0, 0], [false, true, false, false]⟩)).2) ∧
     parse_line ['Z'] = LineRes.err) ∧
    parse_reg_file ([['0', '2', ' ', '1', '1']] ++ ['Z'] :: [])
        ⟨4, [0, 0, 0, 0], [false, true, false, false]⟩ =
      (false, (process_lines [['0', '2', ' ', '1', '1']]
        (sparse_buf_clear ⟨4, [0, 0, 0, 0], [false, true, false, false]⟩)).2) ∧
    sparse_buf_is_valid (process_lines [['0', '2', ' ', '1', '1']]
        (sparse_buf_clear ⟨4, [0, 0, 0, 0], [false, true, false, false]⟩)).2 2
      = true ∧
    (process_lines [['0', '2', ' ', '1', '1']]
        (sparse_buf_clear ⟨4, [0, 0, 0, 0], [false, true, false, false]⟩)).2 ≠
      ⟨4, [0, 0, 0, 0], [false, true, false, false]⟩ ∧
    (process_lines [['0', '2', ' ', '1', '1']]
        (sparse_buf_clear ⟨4, [0, 0, 0, 0], [false, true, false, false]⟩)).2 ≠
      sparse_buf_clear ⟨4, [0, 0, 0, 0], [false, true, false, false]⟩ :=
  ⟨⟨by decide, by decide⟩,
   (parse_reg_file_not_atomic ⟨4, [0, 0, 0, 0], [false, true, false, false]⟩
     (process_lines [['0', '2', ' ', '1', '1']]
       (sparse_buf_clear ⟨4, [0, 0, 0, 0], [false, true, false, false]⟩)).2
     [['0', '2', ' ', '1', '1']] ['Z'] [] (by decide) (by decide)).1,
   (parse_reg_file_not_atomic ⟨4, [0, 0, 0, 0], [false, true, false, false]⟩
     (process_lines [['0', '2', ' ', '1', '1']]
       (sparse_buf_clear ⟨4, [0, 0, 0, 0], [false, true, false, false]⟩)).2
     [['0', '2', ' ', '1', '1']] ['Z'] [] (by decide) (by decide)).2
     ['0', '2', ' ', '1', '1'] (by decide) 2 0x11 (by decide),
   by decide, by decide⟩

end RfPktDrv
